import Mathlib

/-!
Verification development for the `gitblobts` package.

We shallowly embed the parts of the source that the specification's claims
are about:

* `gitblobts/util/int_base_encoder.py` — `IntBaseEncoder` over the
  `urlsafe_b64` encoding (the only encoding the store configures), in
  variable-length mode (`bits=None`), for both signednesses.
* `gitblobts/util/intmerger.py` — `IntMerger.merge` / `IntMerger.split`,
  using Mathlib's bitwise operations on `ℤ`, which match Python's
  arbitrary-precision two's-complement semantics of `<<`, `>>`, `|`, `&`.
* `gitblobts/store.py` — the name codec (`_encode_name` / `_decode_name`),
  the ingress/egress pipeline, `getblobs`, `_addblob` and
  `_commit_and_push_repo`.

Bytes and filename characters are modelled as `List Nat` with entries
`< 256`; Python `int` is `ℤ` (`Nat` where the source value is always
non-negative).  Filesystem and git effects are modelled by explicit state
(a directory listing is a list of `(name, content)` pairs; git calls are
an oracle giving each call's outcome, and executions record a trace).
-/

namespace Gitblobts

set_option maxRecDepth 40000
set_option exponentiation.threshold 2000

/-! ### Configuration (`gitblobts/config.py`) -/

/-- `config.FILE_VERSION = 1`. -/
def FILE_VERSION : Nat := 1

/-- `config.NUM_RANDOM_BITS = 256`. -/
def NUM_RANDOM_BITS : Nat := 256

/-! ### Python `int.bit_length`

`bitLen n` is the bit length of `n` (0 for 0).  It is defined with an
explicit fuel argument (the number itself) so that it is structurally
recursive and hence evaluable by the kernel. -/

def bitLenAux : Nat → Nat → Nat
  | 0, _ => 0
  | fuel + 1, n => if n = 0 then 0 else bitLenAux fuel (n / 2) + 1

/-- Bit length of a natural number, as Python's `int.bit_length()`
(for a negative Python int, `bit_length` is that of its absolute value). -/
def bitLen (n : Nat) : Nat := bitLenAux n n

/-! ### Python `int.to_bytes` / `int.from_bytes` (big-endian)

`natToBytesBE L n` is the `L`-byte big-endian representation of
`n % 256^L`; for an in-range `n` this is exactly
`n.to_bytes(L, byteorder='big')` (signed values are first reduced to
their two's-complement representative by the caller, matching the byte
string Python produces). -/

def natToBytesBE : Nat → Nat → List Nat
  | 0, _ => []
  | L + 1, n => (n / 256 ^ L % 256) :: natToBytesBE L (n % 256 ^ L)

/-- `int.from_bytes(bs, byteorder='big', signed=False)`. -/
def bytesToNatBE (bs : List Nat) : Nat := bs.foldl (fun acc b => acc * 256 + b) 0

/-! ### `base64.urlsafe_b64encode` / `base64.urlsafe_b64decode`

Characters are byte values.  The URL-safe alphabet is
`A–Z a–z 0–9 - _`, with `=` (61) as the padding character.
`b64encode` processes input bytes in groups of three, exactly as the
standard encoding does.  Python's decoder (`binascii.a2b_base64` with
`validate=False`, which `base64.urlsafe_b64decode` uses) first discards
every character outside the alphabet-or-padding set, then decodes groups
of four characters, stopping at padding; `urlsafe_b64decode` is that
after translating `-`/`_` to the standard alphabet, i.e. net decoding
with the URL-safe alphabet. -/

/-- Character of a 6-bit value in the URL-safe base64 alphabet. -/
def b64chr (s : Nat) : Nat :=
  if s < 26 then 65 + s
  else if s < 52 then 71 + s
  else if s < 62 then s - 4
  else if s = 62 then 45
  else 95

/-- 6-bit value of an alphabet character (unspecified elsewhere;
the decoder only applies it to alphabet characters). -/
def b64inv (c : Nat) : Nat :=
  if 65 ≤ c ∧ c ≤ 90 then c - 65
  else if 97 ≤ c ∧ c ≤ 122 then c - 71
  else if 48 ≤ c ∧ c ≤ 57 then c + 4
  else if c = 45 then 62
  else if c = 95 then 63
  else 0

/-- Membership in the URL-safe base64 alphabet. -/
def isB64Alpha (c : Nat) : Bool :=
  (65 ≤ c && c ≤ 90) || (97 ≤ c && c ≤ 122) || (48 ≤ c && c ≤ 57) || c == 45 || c == 95

/-- Characters the lenient Python decoder keeps: alphabet or padding. -/
def b64keep (c : Nat) : Bool := isB64Alpha c || c == 61

/-- `base64.urlsafe_b64encode` on a byte string. -/
def b64encode : List Nat → List Nat
  | b0 :: b1 :: b2 :: rest =>
    b64chr (b0 / 4) :: b64chr (b0 % 4 * 16 + b1 / 16) ::
      b64chr (b1 % 16 * 4 + b2 / 64) :: b64chr (b2 % 64) :: b64encode rest
  | [b0, b1] => [b64chr (b0 / 4), b64chr (b0 % 4 * 16 + b1 / 16), b64chr (b1 % 16 * 4), 61]
  | [b0] => [b64chr (b0 / 4), b64chr (b0 % 4 * 16), 61, 61]
  | [] => []

/-- Decoding of a cleaned (alphabet-and-padding only) character stream,
four characters at a time, stopping at padding.  On streams that are not
valid base64 Python raises `binascii.Error`; such streams never arise
here, and the fall-through returns `[]`. -/
def b64decodeCore : List Nat → List Nat
  | c1 :: c2 :: c3 :: c4 :: rest =>
    if c3 = 61 then [b64inv c1 * 4 + b64inv c2 / 16]
    else if c4 = 61 then
      [b64inv c1 * 4 + b64inv c2 / 16, b64inv c2 % 16 * 16 + b64inv c3 / 4]
    else
      (b64inv c1 * 4 + b64inv c2 / 16) :: (b64inv c2 % 16 * 16 + b64inv c3 / 4) ::
        (b64inv c3 % 4 * 64 + b64inv c4) :: b64decodeCore rest
  | _ => []

/-- `base64.urlsafe_b64decode`: discard foreign characters, then decode. -/
def urlsafe_b64decode (s : List Nat) : List Nat := b64decodeCore (s.filter b64keep)

/-! ### `IntMerger` (`gitblobts/util/intmerger.py`)

Python semantics on arbitrary-precision ints: `x << n` is `x * 2^n`,
`x >> n` is arithmetic (floor) shift, `|` and `&` are two's-complement
bitwise operations.  Mathlib's `ℤ` shift instances and `Int.lor` /
`Int.land` implement exactly these semantics. -/

namespace IntMerger

/-- `IntMerger._max_int(num_bits) = (1 << num_bits) - 1`. -/
def max_int (num_bits : Nat) : Int := (1 <<< (num_bits : Int)) - 1

/-- `IntMerger.merge(int1, int2) = (int1 << self._num_bits_int2) | int2`. -/
def merge (num_bits_int2 : Nat) (int1 int2 : Int) : Int :=
  Int.lor (int1 <<< (num_bits_int2 : Int)) int2

/-- `IntMerger.split(int12) = (int12 >> self._num_bits_int2, int12 & self._max_int2)`. -/
def split (num_bits_int2 : Nat) (int12 : Int) : Int × Int :=
  (int12 >>> (num_bits_int2 : Int), Int.land int12 (max_int num_bits_int2))

end IntMerger

/-! ### `IntBaseEncoder` (`gitblobts/util/int_base_encoder.py`)

Instantiated, as the store does, with the `urlsafe_b64` encoding and
variable-length mode (`bits=None`, so `self.bytes_length is None` and
each `encode` computes the byte length from the value).  `signed`
selects two's-complement byte representations. -/

namespace IntBaseEncoder

/-- `IntBaseEncoder._bytes_length(i) = (i.bit_length() + 7 + self.signed) // 8`
(Python's `bit_length` of a negative int is that of its absolute value;
`True` counts as 1). -/
def bytes_length (signed : Bool) (i : Int) : Nat :=
  (bitLen i.natAbs + 7 + cond signed 1 0) / 8

/-- `IntBaseEncoder.encode`: `i.to_bytes(length, byteorder='big', signed=self.signed)`
then base64-encode.  `i.to_bytes` produces the big-endian bytes of the
two's-complement representative `i mod 2^(8·length)` (for unsigned in-range
values this is `i` itself); it would raise `OverflowError` out of range,
which the computed `length` precludes. -/
def encode (signed : Bool) (i : Int) : List Nat :=
  b64encode (natToBytesBE (bytes_length signed i)
    ((i % ((2 : Int) ^ (8 * bytes_length signed i))).toNat))

/-- `IntBaseEncoder.decode`: base64-decode, then
`int.from_bytes(i_bytes, byteorder='big', signed=self.signed)`; in signed
mode a set top bit makes the value negative by subtracting `2^(8·len)`. -/
def decode (signed : Bool) (b64 : List Nat) : Int :=
  let i_bytes := urlsafe_b64decode b64
  let u := bytesToNatBE i_bytes
  if signed = true ∧ 2 ^ (8 * i_bytes.length) ≤ 2 * u then
    (u : Int) - (2 : Int) ^ (8 * i_bytes.length)
  else (u : Int)


end IntBaseEncoder

/-! ### Exceptions (`gitblobts/exc.py`), restricted to the ones the claims
touch.  `GitCommandError` stands for `git.exc.GitCommandError`, raised by
the `git` collaborator rather than by this package. -/

inductive StoreErr
  | BlobVersionUnsupported
  | RepoPushError
  | RepoPullError
  | GitCommandError
  | AssertionError
  deriving DecidableEq

/-! ### `pathlib` name splitting

`Store._decode_name` reads `filepath.suffix` and `filepath.stem`.
For a file name `name`, CPython's `PurePath` computes
`i = name.rfind('.')` and, when `0 < i < len(name) - 1`, takes
`suffix = name[i:]` and `stem = name[:i]`; otherwise the suffix is empty
and the stem is the whole name.  46 is the code of `'.'`. -/

/-- `str.rfind(c)`: index of the last occurrence of `c`, if any. -/
def rfindIdx (c : Nat) : List Nat → Option Nat
  | [] => none
  | a :: rest =>
    match rfindIdx c rest with
    | some j => some (j + 1)
    | none => if a == c then some 0 else none

/-- `(stem, suffix)` of a file name, following `pathlib.PurePath`. -/
def pathStemSuffix (name : List Nat) : List Nat × List Nat :=
  match rfindIdx 46 name with
  | none => (name, [])
  | some i =>
    if 0 < i ∧ i < name.length - 1 then (name.take i, name.drop i) else (name, [])

/-! ### The `Store` name codec (`gitblobts/store.py`)

The store configures `self._file_stem_encoder = IntBaseEncoder('urlsafe_b64',
signed=True)`, `self._file_suffix_encoder = IntBaseEncoder('urlsafe_b64',
signed=False)`, `self._int_merger = IntMerger(config.NUM_RANDOM_BITS)` and
`self._file_suffix_encoded = self._file_suffix_encoder.encode(config.FILE_VERSION)`. -/

namespace Store

/-- `self._file_suffix_encoded`. -/
def _file_suffix_encoded : List Nat := IntBaseEncoder.encode false (FILE_VERSION : Int)

/-- `Store._encode_name(timestamp_ns)`, with the `secrets.randbits(256)`
draw made an explicit argument `random`:
`f'{encode(merge(timestamp_ns, random))}.{self._file_suffix_encoded}'`. -/
def _encode_name (timestamp_ns : Int) (random : Nat) : List Nat :=
  IntBaseEncoder.encode true (IntMerger.merge NUM_RANDOM_BITS timestamp_ns (random : Int)) ++
    46 :: _file_suffix_encoded

/-- `Store._decode_name(filepath)`: decode the suffix as the file version,
raise `BlobVersionUnsupported` if it exceeds `config.FILE_VERSION`, else
decode the stem and return the high part of the split. -/
def _decode_name (filepath : List Nat) : Except StoreErr Int :=
  if (FILE_VERSION : Int) < IntBaseEncoder.decode false (pathStemSuffix filepath).2 then
    .error .BlobVersionUnsupported
  else
    .ok (IntMerger.split NUM_RANDOM_BITS
      (IntBaseEncoder.decode true (pathStemSuffix filepath).1)).1

end Store

/-! ### Pipeline configuration

`Store.__init__` keeps `self._compression` (a module with `compress` /
`decompress`, or `None`) and `self._encryption` (a `Fernet` instance with
`encrypt` / `decrypt`, or `None`).  Each optional stage is modelled as a
pair of byte-string transformations. -/

/-- The compression / encryption configuration of a `Store`. -/
structure StoreCfg where
  compression : Option ((List Nat → List Nat) × (List Nat → List Nat))
  encryption : Option ((List Nat → List Nat) × (List Nat → List Nat))

namespace Store

/-- `Store._compress_blob`: apply `compress` when configured, else identity. -/
def _compress_blob (cfg : StoreCfg) (blob : List Nat) : List Nat :=
  match cfg.compression with
  | some c => c.1 blob
  | none => blob

/-- `Store._decompress_blob`: apply `decompress` when configured, else identity. -/
def _decompress_blob (cfg : StoreCfg) (blob : List Nat) : List Nat :=
  match cfg.compression with
  | some c => c.2 blob
  | none => blob

/-- `Store._encrypt_blob`: apply `encrypt` when configured, else identity. -/
def _encrypt_blob (cfg : StoreCfg) (blob : List Nat) : List Nat :=
  match cfg.encryption with
  | some e => e.1 blob
  | none => blob

/-- `Store._decrypt_blob`: apply `decrypt` when configured, else identity. -/
def _decrypt_blob (cfg : StoreCfg) (blob : List Nat) : List Nat :=
  match cfg.encryption with
  | some e => e.2 blob
  | none => blob

/-- `Store._ingress_blob(blob) = self._encrypt_blob(self._compress_blob(blob))`. -/
def _ingress_blob (cfg : StoreCfg) (blob : List Nat) : List Nat :=
  _encrypt_blob cfg (_compress_blob cfg blob)

/-- `Store._egress_blob(blob) = self._decompress_blob(self._decrypt_blob(blob))`. -/
def _egress_blob (cfg : StoreCfg) (blob : List Nat) : List Nat :=
  _decompress_blob cfg (_decrypt_blob cfg blob)

end Store

/-! ### Sort keys

`Store.getblobs` sorts the `(timestamp_ns, path)` tuples with Python's
`sorted`, which compares tuples lexicographically (`PosixPath` comparison
is string comparison for these single-component names).  `listLt` is
Python's lexicographic `<` on the character lists, `keyLe` the induced
(non-strict) lexicographic order on `(timestamp, name)` pairs.  Python's
`sorted` output is the unique permutation of its input that is
non-decreasing under this total order (stability only matters for
incomparable distinct elements, and this order has none). -/

def listLt : List Nat → List Nat → Bool
  | [], [] => false
  | [], _ :: _ => true
  | _ :: _, [] => false
  | a :: as, b :: bs => if a < b then true else if b < a then false else listLt as bs

def keyLe (x y : Int × List Nat) : Bool :=
  if x.1 < y.1 then true
  else if y.1 < x.1 then false
  else listLt x.2 y.2 || x.2 == y.2

def keyLE (x y : Int × List Nat) : Prop := keyLe x y = true

/-- The descending sort relation (Python's `sorted(..., reverse=True)`
orders by the reversed comparison). -/
def keyGE (x y : Int × List Nat) : Prop := keyLe y x = true

instance : DecidableRel keyLE := fun _ _ => inferInstanceAs (Decidable (_ = true))

instance : DecidableRel keyGE := fun _ _ => inferInstanceAs (Decidable (_ = true))

/-! ### Normalized query bounds

In `getblobs`, each bound is normalized to either an integer nanosecond
timestamp or `±math.inf` (`None` and `NaN` default to `-inf` / `+inf`);
comparisons mix ints and the two infinities. -/

inductive BoundNs
  | negInf
  | fin (ns : Int)
  | posInf
  deriving DecidableEq

/-- Python `<=` on a normalized bound (`int` or `±inf`). -/
def BoundNs.le : BoundNs → BoundNs → Bool
  | .negInf, _ => true
  | _, .posInf => true
  | .fin a, .fin b => a ≤ b
  | _, _ => false

/-! ### The yielded `Blob` and its float timestamp

`getblobs` yields `Blob(timestamp_ns / 1e9, ...)`: the integer nanosecond
timestamp divided by the float `1e9` (exactly `10^9`).  CPython's
`int / float` true division yields the IEEE-754 binary64 nearest
(ties-to-even) value of the exact quotient.  A binary64 value is modelled
exactly by its normalized `(mantissa, exponent)` pair with value
`mantissa * 2^exponent` and `2^52 ≤ |mantissa| < 2^53` (or `(0, 0)`);
the quotients arising here are far inside the normal range. -/

structure Float64 where
  mantissa : Int
  exponent : Int
  deriving DecidableEq

/-- `round(num/den)` to the nearest integer, ties to even. -/
def divNearestEven (num den : Nat) : Nat :=
  if den < 2 * (num % den) then num / den + 1
  else if 2 * (num % den) < den then num / den
  else if num / den % 2 = 0 then num / den else num / den + 1

/-- Represent `a / b / 2^s` as an exact `Nat` fraction. -/
def scaleNumDen (a b : Nat) (s : Int) : Nat × Nat :=
  if 0 ≤ s then (a * 2 ^ s.toNat, b) else (a, b * 2 ^ (-s).toNat)

/-- Nearest (ties-to-even) binary64 value of `a / b`, for `1 ≤ a`, `1 ≤ b`
with the quotient in the normal range: mantissa `m = round(a/b · 2^(52-E))`
at the unique binade exponent `E` giving `2^52 ≤ m ≤ 2^53`. -/
def roundPosToFloat64 (a b : Nat) : Float64 :=
  let g : Int := (bitLen a : Int) - (bitLen b : Int)
  let p0 := scaleNumDen a b (52 - g)
  let E : Int := if p0.1 / p0.2 < 2 ^ 52 then g - 1 else g
  let p := scaleNumDen a b (52 - E)
  let m := divNearestEven p.1 p.2
  if m = 2 ^ 53 then ⟨2 ^ 52, E - 51⟩ else ⟨m, E - 52⟩

/-- The binary64 value of `timestamp_ns / 1e9`. -/
def float64OfTimeNs (t : Int) : Float64 :=
  if t = 0 then ⟨0, 0⟩
  else if 0 < t then roundPosToFloat64 t.toNat (10 ^ 9)
  else ⟨-(roundPosToFloat64 t.natAbs (10 ^ 9)).mantissa,
    (roundPosToFloat64 t.natAbs (10 ^ 9)).exponent⟩

/-- `Blob` instances as returned by `Store.getblobs`: a float timestamp in
seconds and the raw payload bytes.  The exact integer nanosecond timestamp
is not part of the returned record. -/
structure Blob where
  timestamp : Float64
  blob : List Nat
  deriving DecidableEq

namespace Store

/-- `path.read_bytes()` over an explicit directory listing of
`(name, content)` pairs. -/
def read_bytes (files : List (List Nat × List Nat)) (name : List Nat) : List Nat :=
  (files.lookup name).getD []

/-- Decoding pass of `getblobs`:
`((self._decode_name(path), path) for path in self._path.iterdir())`.
The generator is forced in full by `sorted` before anything is yielded,
and an exception raised while decoding any entry propagates out of
`getblobs`; the model therefore decodes eagerly, failing with the first
decode error. -/
def decodeListing : List (List Nat × List Nat) → Except StoreErr (List (Int × List Nat))
  | [] => .ok []
  | f :: rest =>
    match _decode_name f.1 with
    | .error e => .error e
    | .ok t =>
      match decodeListing rest with
      | .error e => .error e
      | .ok tps => .ok ((t, f.1) :: tps)

/-- The `Blob` yielded for a sorted `(timestamp_ns, path)` tuple:
`Blob(timestamp_ns / 1e9, self._egress_blob(path.read_bytes()))`. -/
def yieldBlob (cfg : StoreCfg) (files : List (List Nat × List Nat))
    (tp : Int × List Nat) : Blob :=
  ⟨float64OfTimeNs tp.1, _egress_blob cfg (read_bytes files tp.2)⟩

/-- `Store.getblobs` over normalized bounds: decode all names, filter to
the inclusive range (with bounds swapped when `start > end`), sort the
`(timestamp_ns, path)` tuples ascending — or by the reversed comparison
when descending — and yield the blobs in that order.  `insertionSort`
with this total order returns the same list as Python's stable `sorted`:
both are permutations of the input that are non-decreasing under a total
antisymmetric order, which determines the list uniquely.  (The optional
pre-query `self._pull_repo()`, off by default and unrelated to the
filtering and ordering, is outside the modelled fragment.) -/
def getblobs (cfg : StoreCfg) (files : List (List Nat × List Nat))
    (start_time_ns end_time_ns : BoundNs) : Except StoreErr (List Blob) :=
  match decodeListing files with
  | .error e => .error e
  | .ok tps =>
    if BoundNs.le start_time_ns end_time_ns then
      .ok ((List.insertionSort keyLE (tps.filter (fun tp =>
        BoundNs.le start_time_ns (BoundNs.fin tp.1) &&
          BoundNs.le (BoundNs.fin tp.1) end_time_ns))).map (yieldBlob cfg files))
    else
      .ok ((List.insertionSort keyGE (tps.filter (fun tp =>
        BoundNs.le end_time_ns (BoundNs.fin tp.1) &&
          BoundNs.le (BoundNs.fin tp.1) start_time_ns))).map (yieldBlob cfg files))

/-- A name in the on-disk layout `<encoded merge(t, nonce)>.<encoded v>`
whose version tag is `v`; for `v = FILE_VERSION` this is `_encode_name`. -/
def nameWithVersion (timestamp_ns : Int) (random : Nat) (version : Nat) : List Nat :=
  IntBaseEncoder.encode true (IntMerger.merge NUM_RANDOM_BITS timestamp_ns (random : Int)) ++
    46 :: IntBaseEncoder.encode false (version : Int)

end Store

/-! ### The git collaborator (`Store._commit_and_push_repo`, `Store._pull_repo`)

Calls into GitPython are modelled by an oracle giving each call's
outcome; an execution returns the ordered trace of collaborator
operations it performed together with its result.  Flag values are
GitPython's: `PushInfo.NEW_HEAD = 2`, `PushInfo.FAST_FORWARD = 256`,
`FetchInfo.HEAD_UPTODATE = 4`, `FetchInfo.FAST_FORWARD = 64`. -/

inductive GitOp
  | writeFile
  | indexAdd
  | commit
  | push
  | lowPush
  | pull
  | verifyRoundTrip
  deriving DecidableEq

inductive PushOutcome
  | raisesGitCommand
  | completes (flags : Nat)
  deriving DecidableEq

inductive PullOutcome
  | raisesGitCommand
  | completes (flags : Nat)
  deriving DecidableEq

/-- Outcomes of the collaborator calls during one commit-and-push:
`pushOutcome k` is the outcome of the `k`-th `remote.push()` call,
`lowPushMatches` whether the low-level `git push --set-upstream` output
equals the expected upstream-established message. -/
structure GitOracle where
  pushOutcome : Nat → PushOutcome
  pullOutcome : PullOutcome
  lowPushMatches : Bool

namespace Store

/-- `_is_pushed(push_info)`: flags in `{FAST_FORWARD, NEW_HEAD}`. -/
def _is_pushed (flags : Nat) : Bool := flags == 256 || flags == 2

/-- `_is_pulled(pull_info)`: flags in `{HEAD_UPTODATE, FAST_FORWARD}`. -/
def _is_pulled (flags : Nat) : Bool := flags == 4 || flags == 64

/-- `Store._pull_repo`: one `remote.pull()`; a `GitCommandError` is caught
and only logged, invalid flags raise `RepoPullError`. -/
def _pull_repo (o : GitOracle) : List GitOp × Except StoreErr Unit :=
  match o.pullOutcome with
  | .raisesGitCommand => ([.pull], .ok ())
  | .completes flags =>
    if _is_pulled flags then ([.pull], .ok ()) else ([.pull], .error .RepoPullError)

/-- `Store._commit_and_push_repo`: commit, then push; on
`GitCommandError` retry once with the low-level upstream-setting push
(raising `RepoPushError` unless its output matches the expected message);
on a completed but unsuccessful push, pull once and retry the push
exactly once, raising `RepoPushError` if the retry also reports failure.
The retried `remote.push()` is outside any `try`, so a `GitCommandError`
there propagates as-is. -/
def _commit_and_push_repo (o : GitOracle) : List GitOp × Except StoreErr Unit :=
  match o.pushOutcome 0 with
  | .raisesGitCommand =>
    if o.lowPushMatches then ([.commit, .push, .lowPush], .ok ())
    else ([.commit, .push, .lowPush], .error .RepoPushError)
  | .completes flags0 =>
    if _is_pushed flags0 then ([.commit, .push], .ok ())
    else
      match (_pull_repo o).2 with
      | .error e => ([.commit, .push] ++ (_pull_repo o).1, .error e)
      | .ok _ =>
        match o.pushOutcome 1 with
        | .raisesGitCommand =>
          ([.commit, .push] ++ (_pull_repo o).1 ++ [.push], .error .GitCommandError)
        | .completes flags1 =>
          if _is_pushed flags1 then
            ([.commit, .push] ++ (_pull_repo o).1 ++ [.push], .ok ())
          else
            ([.commit, .push] ++ (_pull_repo o).1 ++ [.push], .error .RepoPushError)

/-- Whether the single pull of the retry path raises `RepoPullError`
(a caught `GitCommandError` is not fatal). -/
def pullFatal (o : GitOracle) : Bool :=
  match o.pullOutcome with
  | .raisesGitCommand => false
  | .completes flags => !_is_pulled flags

/-- `Store._addblob` with the timestamp already normalized to nanoseconds
and the nonce explicit: encode the name, check the decode assertion,
run the ingress pipeline, write the file, stage it, commit-and-push when
`push` is set, and only then verify the round trip of the written bytes
through the egress pipeline (`AssertionError` stands for a failed
`assert`). -/
def _addblob (cfg : StoreCfg) (o : GitOracle) (blob : List Nat) (timestamp_ns : Int)
    (random : Nat) (push : Bool) : List GitOp × Except StoreErr Unit :=
  match _decode_name (_encode_name timestamp_ns random) with
  | .error e => ([], .error e)
  | .ok decoded =>
    if decoded ≠ timestamp_ns then ([], .error .AssertionError)
    else
      match (if push then _commit_and_push_repo o else ([], .ok ())).2 with
      | .error e =>
        ([.writeFile, .indexAdd] ++ (if push then _commit_and_push_repo o else ([], .ok ())).1,
          .error e)
      | .ok _ =>
        if _egress_blob cfg (_ingress_blob cfg blob) = blob then
          ([.writeFile, .indexAdd] ++ (if push then _commit_and_push_repo o else ([], .ok ())).1
            ++ [.verifyRoundTrip], .ok ())
        else
          ([.writeFile, .indexAdd] ++ (if push then _commit_and_push_repo o else ([], .ok ())).1
            ++ [.verifyRoundTrip], .error .AssertionError)

/-- `Store.addblob`: `self._addblob(blob, timestamp, push=True)`. -/
def addblob (cfg : StoreCfg) (o : GitOracle) (blob : List Nat) (timestamp_ns : Int)
    (random : Nat) : List GitOp × Except StoreErr Unit :=
  _addblob cfg o blob timestamp_ns random true

end Store

/-- Oracle for the C5 witness: first push completes `UP_TO_DATE` (512,
not counted as pushed), pull fast-forwards (64), retried push completes
`REJECTED` (8). -/
def oracleC5 : GitOracle :=
  ⟨fun k => if k = 0 then .completes 512 else .completes 8, .completes 64, true⟩

/-! ## Theorems -/

theorem bitLenAux_congr : ∀ fuel fuel' n, n ≤ fuel → n ≤ fuel' →
    bitLenAux fuel n = bitLenAux fuel' n := by
  intro fuel
  induction fuel with
  | zero =>
    intro fuel' n hn _
    interval_cases n
    cases fuel' <;> simp [bitLenAux]
  | succ f ih =>
    intro fuel' n hn hn'
    cases fuel' with
    | zero =>
      interval_cases n
      simp [bitLenAux]
    | succ f' =>
      simp only [bitLenAux]
      rcases Nat.eq_zero_or_pos n with h0 | h0
      · simp [h0]
      · have hne : ¬ n = 0 := by omega
        have hdiv : n / 2 < n := Nat.div_lt_self h0 (by omega)
        rw [if_neg hne, if_neg hne, ih f' (n / 2) (by omega) (by omega)]

theorem lt_two_pow_bitLenAux : ∀ fuel n, n ≤ fuel → n < 2 ^ bitLenAux fuel n := by
  intro fuel
  induction fuel with
  | zero => intro n hn; interval_cases n; simp [bitLenAux]
  | succ f ih =>
    intro n hn
    rcases Nat.eq_zero_or_pos n with h0 | h0
    · subst h0; simp [bitLenAux]
    · have hne : ¬ n = 0 := by omega
      have hdiv : n / 2 < n := Nat.div_lt_self h0 (by omega)
      have := ih (n / 2) (by omega)
      simp only [bitLenAux, if_neg hne]
      have h2 : n ≤ 2 * (n / 2) + 1 := by omega
      calc n ≤ 2 * (n / 2) + 1 := h2
        _ < 2 * 2 ^ bitLenAux f (n / 2) := by omega
        _ = 2 ^ (bitLenAux f (n / 2) + 1) := by ring

/-- Defining property of `bitLen`: `n < 2 ^ bitLen n`. -/
theorem lt_two_pow_bitLen (n : Nat) : n < 2 ^ bitLen n :=
  lt_two_pow_bitLenAux n n le_rfl

theorem length_natToBytesBE : ∀ L n, (natToBytesBE L n).length = L := by
  intro L
  induction L with
  | zero => intro n; simp [natToBytesBE]
  | succ L ih => intro n; simp [natToBytesBE, ih]

theorem mem_natToBytesBE_lt : ∀ L n, ∀ b ∈ natToBytesBE L n, b < 256 := by
  intro L
  induction L with
  | zero => intro n b hb; simp [natToBytesBE] at hb
  | succ L ih =>
    intro n b hb
    simp only [natToBytesBE, List.mem_cons] at hb
    rcases hb with hb | hb
    · subst hb; exact Nat.mod_lt _ (by omega)
    · exact ih _ b hb

theorem bytesToNatBE_foldl (bs : List Nat) : ∀ acc,
    bs.foldl (fun acc b => acc * 256 + b) acc = acc * 256 ^ bs.length + bytesToNatBE bs := by
  induction bs with
  | nil => intro acc; simp [bytesToNatBE]
  | cons b bs ih =>
    intro acc
    simp only [List.foldl_cons, List.length_cons, bytesToNatBE]
    rw [ih (acc * 256 + b), ih (0 * 256 + b)]
    ring

theorem bytesToNatBE_natToBytesBE : ∀ L n, n < 256 ^ L →
    bytesToNatBE (natToBytesBE L n) = n := by
  intro L
  induction L with
  | zero => intro n hn; interval_cases n; simp [natToBytesBE, bytesToNatBE]
  | succ L ih =>
    intro n hn
    have hdiv : n / 256 ^ L < 256 := by
      have : n < 256 ^ L * 256 := by
        calc n < 256 ^ (L + 1) := hn
          _ = 256 ^ L * 256 := by ring
      exact Nat.div_lt_of_lt_mul this
    have hmod : n % 256 ^ L < 256 ^ L := Nat.mod_lt _ (by positivity)
    simp only [natToBytesBE, bytesToNatBE, List.foldl_cons]
    rw [Nat.mod_eq_of_lt hdiv, Nat.zero_mul, Nat.zero_add, bytesToNatBE_foldl,
      length_natToBytesBE]
    rw [ih (n % 256 ^ L) hmod, Nat.mul_comm]
    exact Nat.div_add_mod n (256 ^ L)

theorem b64inv_b64chr : ∀ s, s < 64 → b64inv (b64chr s) = s := by decide

theorem b64keep_b64chr : ∀ s, s < 64 → b64keep (b64chr s) = true := by decide

theorem b64chr_ne_pad : ∀ s, s < 64 → b64chr s ≠ 61 := by decide

theorem b64chr_ne_dot : ∀ s, s < 64 → b64chr s ≠ 46 := by decide

/-- Custom induction on byte strings in groups of three, mirroring the
recursion of `b64encode`. -/
theorem list3Induction {P : List Nat → Prop} (h0 : P []) (h1 : ∀ a, P [a])
    (h2 : ∀ a b, P [a, b]) (h3 : ∀ a b c t, P t → P (a :: b :: c :: t)) :
    ∀ l, P l
  | [] => h0
  | [a] => h1 a
  | [a, b] => h2 a b
  | a :: b :: c :: t => h3 a b c t (list3Induction h0 h1 h2 h3 t)

theorem mem_b64encode (bs : List Nat) (hbs : ∀ b ∈ bs, b < 256) :
    ∀ c ∈ b64encode bs, c = 61 ∨ ∃ s, s < 64 ∧ c = b64chr s := by
  induction bs using list3Induction with
  | h0 => simp [b64encode]
  | h1 a =>
    have ha : a < 256 := hbs a (by simp)
    intro c hc
    simp only [b64encode, List.mem_cons, List.not_mem_nil, or_false] at hc
    rcases hc with h | h | h | h
    · exact Or.inr ⟨a / 4, by omega, h⟩
    · exact Or.inr ⟨a % 4 * 16, by omega, h⟩
    · exact Or.inl h
    · exact Or.inl h
  | h2 a b =>
    have ha : a < 256 := hbs a (by simp)
    have hb : b < 256 := hbs b (by simp)
    intro c hc
    simp only [b64encode, List.mem_cons, List.not_mem_nil, or_false] at hc
    rcases hc with h | h | h | h
    · exact Or.inr ⟨a / 4, by omega, h⟩
    · exact Or.inr ⟨a % 4 * 16 + b / 16, by omega, h⟩
    · exact Or.inr ⟨b % 16 * 4, by omega, h⟩
    · exact Or.inl h
  | h3 a b c t ih =>
    have ha : a < 256 := hbs a (by simp)
    have hb : b < 256 := hbs b (by simp)
    have hc' : c < 256 := hbs c (by simp)
    have ht : ∀ x ∈ t, x < 256 := fun x hx => hbs x (by simp [hx])
    intro x hx
    simp only [b64encode, List.mem_cons] at hx
    rcases hx with h | h | h | h | h
    · exact Or.inr ⟨a / 4, by omega, h⟩
    · exact Or.inr ⟨a % 4 * 16 + b / 16, by omega, h⟩
    · exact Or.inr ⟨b % 16 * 4 + c / 64, by omega, h⟩
    · exact Or.inr ⟨c % 64, by omega, h⟩
    · exact ih ht x h

theorem filter_b64encode (bs : List Nat) (hbs : ∀ b ∈ bs, b < 256) :
    (b64encode bs).filter b64keep = b64encode bs := by
  rw [List.filter_eq_self]
  intro c hc
  rcases mem_b64encode bs hbs c hc with h | ⟨s, hs, h⟩
  · subst h; decide
  · subst h; exact b64keep_b64chr s hs

theorem b64decodeCore_b64encode (bs : List Nat) (hbs : ∀ b ∈ bs, b < 256) :
    b64decodeCore (b64encode bs) = bs := by
  induction bs using list3Induction with
  | h0 => simp [b64encode, b64decodeCore]
  | h1 a =>
    have ha : a < 256 := hbs a (by simp)
    simp only [b64encode, b64decodeCore, if_true]
    rw [b64inv_b64chr (a / 4) (by omega), b64inv_b64chr (a % 4 * 16) (by omega)]
    congr 1
    omega
  | h2 a b =>
    have ha : a < 256 := hbs a (by simp)
    have hb : b < 256 := hbs b (by simp)
    simp only [b64encode, b64decodeCore]
    rw [if_neg (b64chr_ne_pad (b % 16 * 4) (by omega))]
    simp only [if_true]
    rw [b64inv_b64chr (a / 4) (by omega), b64inv_b64chr (a % 4 * 16 + b / 16) (by omega),
      b64inv_b64chr (b % 16 * 4) (by omega)]
    congr 1
    · omega
    · congr 1
      omega
  | h3 a b c t ih =>
    have ha : a < 256 := hbs a (by simp)
    have hb : b < 256 := hbs b (by simp)
    have hc : c < 256 := hbs c (by simp)
    have ht : ∀ x ∈ t, x < 256 := fun x hx => hbs x (by simp [hx])
    simp only [b64encode, b64decodeCore]
    rw [if_neg (b64chr_ne_pad (b % 16 * 4 + c / 64) (by omega)),
      if_neg (b64chr_ne_pad (c % 64) (by omega))]
    rw [b64inv_b64chr (a / 4) (by omega), b64inv_b64chr (a % 4 * 16 + b / 16) (by omega),
      b64inv_b64chr (b % 16 * 4 + c / 64) (by omega), b64inv_b64chr (c % 64) (by omega)]
    rw [ih ht]
    congr 1
    · omega
    · congr 1
      · omega
      · congr 1
        omega

/-- Round trip of the URL-safe base64 codec on byte strings. -/
theorem urlsafe_b64decode_b64encode (bs : List Nat) (hbs : ∀ b ∈ bs, b < 256) :
    urlsafe_b64decode (b64encode bs) = bs := by
  rw [urlsafe_b64decode, filter_b64encode bs hbs, b64decodeCore_b64encode bs hbs]

/-! ### Auxiliary bit-twiddling facts

These support the two's-complement reasoning for `IntMerger` with a
negative first integer. -/

theorem testBit_two_pow_sub_one_sub :
    ∀ w n i : Nat, n < 2 ^ w →
      Nat.testBit (2 ^ w - 1 - n) i = (decide (i < w) && !Nat.testBit n i) := by
  intro w
  induction w with
  | zero =>
    intro n i hn
    interval_cases n
    simp
  | succ w ih =>
    intro n i hn
    have h2 : 2 ^ (w + 1) = 2 * 2 ^ w := by ring
    cases i with
    | zero =>
      rcases Nat.mod_two_eq_zero_or_one n with hp | hp <;>
        · have hx : (2 ^ (w + 1) - 1 - n) % 2 = 1 - n % 2 := by omega
          simp [Nat.testBit_zero, hx, hp]
    | succ i =>
      rw [Nat.testBit_succ, Nat.testBit_succ]
      have hq : (2 ^ (w + 1) - 1 - n) / 2 = 2 ^ w - 1 - n / 2 := by omega
      have hn2 : n / 2 < 2 ^ w := by omega
      rw [hq, ih (n / 2) i hn2]
      simp [Nat.succ_lt_succ_iff]

theorem two_pow_mul_succ_sub_one (w b : Nat) :
    2 ^ w * (b + 1) - 1 = 2 ^ w * b + (2 ^ w - 1) := by
  have : 1 ≤ 2 ^ w := Nat.one_le_two_pow
  have h : 2 ^ w * (b + 1) = 2 ^ w * b + 2 ^ w := by ring
  omega

theorem testBit_lt_two_pow_of_lt {n w i : Nat} (hn : n < 2 ^ w) (hi : w ≤ i) :
    Nat.testBit n i = false := by
  refine Nat.testBit_lt_two_pow ?_
  calc n < 2 ^ w := hn
    _ ≤ 2 ^ i := Nat.pow_le_pow_right (by omega) hi

/-- `ldiff` of an all-ones-low-bits number by a small number is subtraction. -/
theorem ldiff_all_ones (w b n : Nat) (hn : n < 2 ^ w) :
    Nat.ldiff (2 ^ w * (b + 1) - 1) n = 2 ^ w * (b + 1) - 1 - n := by
  have h1 : 1 ≤ 2 ^ w := Nat.one_le_two_pow
  have hsub : 2 ^ w - 1 - n < 2 ^ w := by omega
  have hones : 2 ^ w - 1 < 2 ^ w := by omega
  apply Nat.eq_of_testBit_eq
  intro i
  rw [Nat.testBit_ldiff]
  rw [two_pow_mul_succ_sub_one]
  have hrhs : 2 ^ w * b + (2 ^ w - 1) - n = 2 ^ w * b + (2 ^ w - 1 - n) := by omega
  rw [hrhs]
  rw [Nat.testBit_mul_pow_two_add b hones, Nat.testBit_mul_pow_two_add b hsub]
  by_cases hi : i < w
  · rw [if_pos hi, if_pos hi, Nat.testBit_two_pow_sub_one, testBit_two_pow_sub_one_sub w n i hn]
  · rw [if_neg hi, if_neg hi, testBit_lt_two_pow_of_lt hn (le_of_not_lt hi)]
    simp

/-- `ldiff` of the low-bits mask by a two's-complement representative
recovers the complemented low bits. -/
theorem ldiff_mask (w b n : Nat) (hn : n < 2 ^ w) :
    Nat.ldiff (2 ^ w - 1) (2 ^ w * b + (2 ^ w - 1 - n)) = n := by
  have h1 : 1 ≤ 2 ^ w := Nat.one_le_two_pow
  have hsub : 2 ^ w - 1 - n < 2 ^ w := by omega
  apply Nat.eq_of_testBit_eq
  intro i
  rw [Nat.testBit_ldiff, Nat.testBit_two_pow_sub_one, Nat.testBit_mul_pow_two_add b hsub]
  by_cases hi : i < w
  · rw [if_pos hi, testBit_two_pow_sub_one_sub w n i hn]
    simp [hi]
  · rw [if_neg hi, testBit_lt_two_pow_of_lt hn (le_of_not_lt hi)]
    simp [hi]

theorem nat_shiftLeft'_true (b : Nat) : ∀ w, Nat.shiftLeft' true b w = 2 ^ w * (b + 1) - 1 := by
  intro w
  induction w with
  | zero => simp [Nat.shiftLeft']
  | succ w ih =>
    have h1 : 1 ≤ 2 ^ w := Nat.one_le_two_pow
    have hbit : Nat.shiftLeft' true b (w + 1) = 2 * Nat.shiftLeft' true b w + 1 := rfl
    rw [hbit, ih]
    have h2 : 2 ^ (w + 1) = 2 * 2 ^ w := by ring
    have h3 : 0 < 2 ^ w * (b + 1) := Nat.mul_pos (by omega) (by omega)
    have h4 : 2 ^ (w + 1) * (b + 1) = 2 * (2 ^ w * (b + 1)) := by ring
    omega

namespace IntMerger

theorem int_lor_ofNat (x l : Nat) : Int.lor (x : Int) (l : Int) = ((x ||| l : Nat) : Int) := rfl

theorem int_lor_negSucc (m l : Nat) :
    Int.lor (Int.negSucc m) (l : Int) = Int.negSucc (Nat.ldiff m l) := rfl

theorem int_land_ofNat (x m : Nat) : Int.land (x : Int) (m : Int) = ((x &&& m : Nat) : Int) := rfl

theorem int_land_negSucc (m M : Nat) :
    Int.land (Int.negSucc m) (M : Int) = ((Nat.ldiff M m : Nat) : Int) := rfl

theorem max_int_eq (w : Nat) : max_int w = ((2 ^ w - 1 : Nat) : Int) := by
  have h1 : 1 ≤ 2 ^ w := Nat.one_le_two_pow
  rw [max_int, Int.one_shiftLeft]
  push_cast [h1]
  ring

/-- Value of `merge` for a non-negative first integer. -/
theorem merge_ofNat (w : Nat) (a l : Nat) (hl : l < 2 ^ w) :
    merge w (a : Int) (l : Int) = ((2 ^ w * a + l : Nat) : Int) := by
  rw [merge, Int.shiftLeft_coe_nat, int_lor_ofNat, Nat.shiftLeft_eq,
    Nat.mul_comm a (2 ^ w), Nat.mul_add_lt_is_or hl a]

/-- Value of `merge` for a negative first integer. -/
theorem merge_negSucc (w : Nat) (b l : Nat) (hl : l < 2 ^ w) :
    merge w (Int.negSucc b) (l : Int) = Int.negSucc (2 ^ w * (b + 1) - 1 - l) := by
  rw [merge, Int.shiftLeft_negSucc, int_lor_negSucc, nat_shiftLeft'_true,
    ldiff_all_ones w b l hl]

/-- `split(merge(h, l)) = (h, l)` for any `h : ℤ` and `0 ≤ l < 2^w`:
`IntMerger` is reversible. -/
theorem split_merge (w : Nat) (h : Int) (l : Nat) (hl : l < 2 ^ w) :
    split w (merge w h (l : Int)) = (h, (l : Int)) := by
  have h1 : 1 ≤ 2 ^ w := Nat.one_le_two_pow
  cases h with
  | ofNat a =>
    rw [show (Int.ofNat a) = (a : Int) from rfl, merge_ofNat w a l hl, split, Prod.mk.injEq]
    refine ⟨?_, ?_⟩
    · rw [Int.shiftRight_coe_nat, Nat.shiftRight_eq_div_pow,
        Nat.mul_add_div (by omega) a l, Nat.div_eq_of_lt hl]
      simp
    · rw [max_int_eq, int_land_ofNat, Nat.and_pow_two_sub_one_eq_mod,
        Nat.mul_add_mod, Nat.mod_eq_of_lt hl]
  | negSucc b =>
    rw [merge_negSucc w b l hl, split, Prod.mk.injEq]
    have hm : 2 ^ w * (b + 1) - 1 - l = 2 ^ w * b + (2 ^ w - 1 - l) := by
      rw [two_pow_mul_succ_sub_one]
      omega
    refine ⟨?_, ?_⟩
    · rw [Int.shiftRight_negSucc, Nat.shiftRight_eq_div_pow, hm,
        Nat.mul_add_div (by omega) b (2 ^ w - 1 - l),
        Nat.div_eq_of_lt (show 2 ^ w - 1 - l < 2 ^ w by omega), Nat.add_zero]
    · rw [max_int_eq, int_land_negSucc, hm, ldiff_mask w b l hl]


end IntMerger

namespace IntBaseEncoder

theorem two_five_six_pow (L : Nat) : (256 : Nat) ^ L = 2 ^ (8 * L) := by
  rw [show (256 : Nat) = 2 ^ 8 from rfl, ← Nat.pow_mul]

/-- Round trip of the signed variable-length `urlsafe_b64` encoder. -/
theorem decode_encode_signed (i : Int) : decode true (encode true i) = i := by
  set L := bytes_length true i with hL
  have hLval : L = (bitLen i.natAbs + 8) / 8 := by
    rw [hL]
    simp only [bytes_length, cond_true]
  have hbit : bitLen i.natAbs + 1 ≤ 8 * L := by omega
  have habs : i.natAbs < 2 ^ (8 * L - 1) := by
    calc i.natAbs < 2 ^ bitLen i.natAbs := lt_two_pow_bitLen _
      _ ≤ 2 ^ (8 * L - 1) := Nat.pow_le_pow_right (by omega) (by omega)
  have hLpos : 1 ≤ L := by omega
  have hpow_split : 2 ^ (8 * L) = 2 * 2 ^ (8 * L - 1) := by
    rw [← Nat.pow_succ']
    congr 1
    omega
  set u : Nat := ((i % ((2 : Int) ^ (8 * L))).toNat) with hu
  have hupow : u < 2 ^ (8 * L) ∧
      ((0 ≤ i ∧ (u : Int) = i ∧ 2 * u < 2 ^ (8 * L)) ∨
        (i < 0 ∧ (u : Int) = i + 2 ^ (8 * L) ∧ 2 ^ (8 * L) ≤ 2 * u)) := by
    have hcast : ((2 ^ (8 * L - 1) : Nat) : Int) = (2 : Int) ^ (8 * L - 1) := by push_cast; ring
    have habsi : i.natAbs < 2 ^ (8 * L - 1) := habs
    rcases Int.le_or_lt 0 i with hpos | hneg
    · have hiub : i < (2 : Int) ^ (8 * L - 1) := by
        have hi : i = (i.natAbs : Int) := (Int.natAbs_of_nonneg hpos).symm
        rw [hi, ← hcast]
        exact_mod_cast habsi
      have hlt : i < (2 : Int) ^ (8 * L) := by
        calc i < (2 : Int) ^ (8 * L - 1) := hiub
          _ ≤ (2 : Int) ^ (8 * L) := by
            apply pow_le_pow_right₀ (by omega) (by omega)
      have hmod : i % ((2 : Int) ^ (8 * L)) = i := Int.emod_eq_of_lt hpos hlt
      have huv : (u : Int) = i := by
        rw [hu, hmod, Int.toNat_of_nonneg hpos]
      constructor
      · have : (u : Int) < (2 : Int) ^ (8 * L) := by rw [huv]; exact hlt
        exact_mod_cast this
      · left
        refine ⟨hpos, huv, ?_⟩
        have : (2 : Int) * u < (2 : Int) ^ (8 * L) := by
          rw [huv]
          calc (2 : Int) * i < 2 * 2 ^ (8 * L - 1) := by omega
            _ = 2 ^ (8 * L) := by
              rw [show (2 : Int) * 2 ^ (8 * L - 1) = 2 ^ (8 * L - 1 + 1) by ring]
              congr 1
              omega
        exact_mod_cast this
    · have hilb : -(2 : Int) ^ (8 * L - 1) ≤ i := by
        have hi : i = -(i.natAbs : Int) := by
          rcases Int.natAbs_eq i with h | h
          · omega
          · exact h
        rw [hi, ← hcast]
        have : (i.natAbs : Int) ≤ (2 ^ (8 * L - 1) : Nat) := by exact_mod_cast habsi.le
        omega
      have hp2 : ((2 : Int) ^ (8 * L)) = 2 * (2 : Int) ^ (8 * L - 1) := by
        rw [show (2 : Int) * 2 ^ (8 * L - 1) = 2 ^ (8 * L - 1 + 1) by ring]
        congr 1
        omega
      have hmod : i % ((2 : Int) ^ (8 * L)) = i + (2 : Int) ^ (8 * L) := by
        have h1 : i + (2 : Int) ^ (8 * L) = i + (2 : Int) ^ (8 * L) * 1 := by ring
        have h2 : (i + (2 : Int) ^ (8 * L)) % ((2 : Int) ^ (8 * L)) =
            i % ((2 : Int) ^ (8 * L)) := by
          rw [h1, Int.add_mul_emod_self_left]
        rw [← h2, Int.emod_eq_of_lt (by omega) (by omega)]
      have huv : (u : Int) = i + (2 : Int) ^ (8 * L) := by
        rw [hu, hmod, Int.toNat_of_nonneg (by omega)]
      constructor
      · have : (u : Int) < (2 : Int) ^ (8 * L) := by omega
        exact_mod_cast this
      · right
        refine ⟨hneg, huv, ?_⟩
        have : (2 : Int) ^ (8 * L) ≤ 2 * (u : Int) := by omega
        exact_mod_cast this
  obtain ⟨hult, hcases⟩ := hupow
  have hbytes : urlsafe_b64decode (b64encode (natToBytesBE L u)) = natToBytesBE L u :=
    urlsafe_b64decode_b64encode _ (mem_natToBytesBE_lt L u)
  have hval : bytesToNatBE (natToBytesBE L u) = u := by
    apply bytesToNatBE_natToBytesBE
    rw [two_five_six_pow]
    exact hult
  rw [decode, encode]
  simp only [← hL, ← hu, hbytes, hval, length_natToBytesBE]
  rcases hcases with ⟨hpos, huv, hsmall⟩ | ⟨hneg, huv, hbig⟩
  · split_ifs with hcond
    · exact absurd hcond.2 (by omega)
    · exact huv
  · split_ifs with hcond
    · rw [huv]
      ring
    · exact absurd ⟨by trivial, by omega⟩ hcond

/-- Round trip of the unsigned variable-length `urlsafe_b64` encoder. -/
theorem decode_encode_unsigned (n : Nat) : decode false (encode false (n : Int)) = n := by
  set L := bytes_length false (n : Int) with hL
  have hLval : L = (bitLen n + 7) / 8 := by
    rw [hL]
    simp only [bytes_length, cond_false, Int.natAbs_ofNat]
  have hbit : bitLen n ≤ 8 * L := by omega
  have hn : n < 2 ^ (8 * L) := by
    calc n < 2 ^ bitLen n := lt_two_pow_bitLen n
      _ ≤ 2 ^ (8 * L) := Nat.pow_le_pow_right (by omega) hbit
  have hmod : ((n : Int) % ((2 : Int) ^ (8 * L))).toNat = n := by
    rw [Int.emod_eq_of_lt (by omega) (by exact_mod_cast hn), Int.toNat_ofNat]
  rw [decode, encode, ← hL, hmod]
  have hbytes : urlsafe_b64decode (b64encode (natToBytesBE L n)) = natToBytesBE L n :=
    urlsafe_b64decode_b64encode _ (mem_natToBytesBE_lt L n)
  simp only [hbytes, length_natToBytesBE]
  rw [bytesToNatBE_natToBytesBE L n (by rw [two_five_six_pow]; exact hn)]
  rw [if_neg (by simp)]

/-- A leading non-alphabet character (such as the `'.'` of a `pathlib`
suffix) is discarded by the lenient base64 decoder. -/
theorem decode_cons_dot (signed : Bool) (s : List Nat) :
    decode signed (46 :: s) = decode signed s := by
  have hk : b64keep 46 = false := by decide
  simp only [decode, urlsafe_b64decode, List.filter_cons, hk, Bool.false_eq_true, if_false]

theorem bitLen_pos (n : Nat) (h : 0 < n) : 0 < bitLen n := by
  cases n with
  | zero => omega
  | succ m =>
    rw [bitLen]
    simp [bitLenAux]


end IntBaseEncoder

theorem rfindIdx_eq_none (c : Nat) : ∀ l : List Nat, (∀ x ∈ l, x ≠ c) →
    rfindIdx c l = none := by
  intro l
  induction l with
  | nil => intro _; rfl
  | cons a rest ih =>
    intro h
    have ha : (a == c) = false := by
      simp only [beq_eq_false_iff_ne]
      exact h a (by simp)
    rw [rfindIdx, ih (fun x hx => h x (by simp [hx])), ha]
    simp

theorem rfindIdx_dot_append (sfx : List Nat) (hndsfx : ∀ x ∈ sfx, x ≠ 46) :
    ∀ s : List Nat, rfindIdx 46 (s ++ 46 :: sfx) = some s.length := by
  intro s
  induction s with
  | nil =>
    rw [List.nil_append, rfindIdx, rfindIdx_eq_none 46 sfx hndsfx]
    simp
  | cons a s ih =>
    rw [List.cons_append, rfindIdx, ih]
    simp

/-- Splitting a well-formed encoded name (dot-free nonempty stem, dotted
nonempty suffix) recovers its parts. -/
theorem pathStemSuffix_append (s sfx : List Nat) (hs : s ≠ []) (hsfx : sfx ≠ [])
    (hndsfx : ∀ x ∈ sfx, x ≠ 46) :
    pathStemSuffix (s ++ 46 :: sfx) = (s, 46 :: sfx) := by
  have hslen : 0 < s.length := List.length_pos.mpr hs
  have hsfxlen : 0 < sfx.length := List.length_pos.mpr hsfx
  have hlen : (s ++ 46 :: sfx).length = s.length + 1 + sfx.length := by
    simp
    omega
  have hred : pathStemSuffix (s ++ 46 :: sfx) =
      if 0 < s.length ∧ s.length < (s ++ 46 :: sfx).length - 1
      then ((s ++ 46 :: sfx).take s.length, (s ++ 46 :: sfx).drop s.length)
      else (s ++ 46 :: sfx, []) := by
    rw [pathStemSuffix, rfindIdx_dot_append sfx hndsfx s]
  rw [hred, if_pos ⟨by omega, by omega⟩, List.take_left, List.drop_left]

theorem listLt_asymm : ∀ as bs : List Nat,
    listLt as bs = true → listLt bs as = true → False := by
  intro as
  induction as with
  | nil =>
    intro bs h1 h2
    cases bs with
    | nil => simp [listLt] at h1
    | cons b bs2 => simp [listLt] at h2
  | cons a as ih =>
    intro bs h1 h2
    cases bs with
    | nil => simp [listLt] at h1
    | cons b bs2 =>
      simp only [listLt] at h1 h2
      by_cases hab : a < b
      · rw [if_neg (by omega), if_pos hab] at h2
        simp at h2
      · by_cases hba : b < a
        · rw [if_neg hab, if_pos hba] at h1
          simp at h1
        · rw [if_neg hab, if_neg hba] at h1
          rw [if_neg hba, if_neg hab] at h2
          exact ih bs2 h1 h2

theorem listLt_connex : ∀ as bs : List Nat, as ≠ bs →
    listLt as bs = true ∨ listLt bs as = true := by
  intro as
  induction as with
  | nil =>
    intro bs hne
    cases bs with
    | nil => exact absurd rfl hne
    | cons b bs2 => left; simp [listLt]
  | cons a as ih =>
    intro bs hne
    cases bs with
    | nil => right; simp [listLt]
    | cons b bs2 =>
      by_cases hab : a < b
      · left
        simp only [listLt]
        rw [if_pos hab]
      · by_cases hba : b < a
        · right
          simp only [listLt]
          rw [if_pos hba]
        · have heq : a = b := by omega
          subst heq
          have hne2 : as ≠ bs2 := by
            intro hcontra
            exact hne (by rw [hcontra])
          rcases ih bs2 hne2 with h | h
          · left
            simp only [listLt]
            rw [if_neg (by omega), if_neg (by omega)]
            exact h
          · right
            simp only [listLt]
            rw [if_neg (by omega), if_neg (by omega)]
            exact h

theorem listLt_trans : ∀ as bs cs : List Nat, listLt as bs = true → listLt bs cs = true →
    listLt as cs = true := by
  intro as
  induction as with
  | nil =>
    intro bs cs h1 h2
    cases bs with
    | nil => simp [listLt] at h1
    | cons b bs2 =>
      cases cs with
      | nil => simp [listLt] at h2
      | cons c cs2 => simp [listLt]
  | cons a as ih =>
    intro bs cs h1 h2
    cases bs with
    | nil => simp [listLt] at h1
    | cons b bs2 =>
      cases cs with
      | nil => simp [listLt] at h2
      | cons c cs2 =>
        simp only [listLt] at h1 h2 ⊢
        by_cases hab : a < b
        · by_cases hbc : b < c
          · rw [if_pos (by omega)]
          · by_cases hcb : c < b
            · rw [if_neg hbc, if_pos hcb] at h2
              simp at h2
            · rw [if_pos (by omega)]
        · by_cases hba : b < a
          · rw [if_neg hab, if_pos hba] at h1
            simp at h1
          · rw [if_neg hab, if_neg hba] at h1
            by_cases hbc : b < c
            · rw [if_pos (by omega)]
            · by_cases hcb : c < b
              · rw [if_neg hbc, if_pos hcb] at h2
                simp at h2
              · rw [if_neg hbc, if_neg hcb] at h2
                rw [if_neg (by omega), if_neg (by omega)]
                exact ih bs2 cs2 h1 h2

theorem keyLe_total (x y : Int × List Nat) : keyLe x y = true ∨ keyLe y x = true := by
  rw [keyLe, keyLe]
  rcases Int.lt_trichotomy x.1 y.1 with h | h | h
  · left
    rw [if_pos h]
  · by_cases hxy : x.2 = y.2
    · left
      rw [if_neg (by omega), if_neg (by omega)]
      simp [hxy]
    · rcases listLt_connex x.2 y.2 hxy with hl | hl
      · left
        rw [if_neg (by omega), if_neg (by omega), hl]
        simp
      · right
        rw [if_neg (by omega), if_neg (by omega), hl]
        simp
  · right
    rw [if_pos h]

theorem keyLe_antisymm (x y : Int × List Nat) (h1 : keyLe x y = true)
    (h2 : keyLe y x = true) : x = y := by
  rw [keyLe] at h1 h2
  by_cases hlt : x.1 < y.1
  · rw [if_neg (by omega), if_pos hlt] at h2
    simp at h2
  · by_cases hgt : y.1 < x.1
    · rw [if_neg hlt, if_pos hgt] at h1
      simp at h1
    · rw [if_neg hlt, if_neg hgt] at h1
      rw [if_neg hgt, if_neg hlt] at h2
      have heq1 : x.1 = y.1 := by omega
      rcases (by simpa using h1 : listLt x.2 y.2 = true ∨ x.2 = y.2) with hl1 | he1
      · rcases (by simpa using h2 : listLt y.2 x.2 = true ∨ y.2 = x.2) with hl2 | he2
        · exact absurd hl2 (fun hc => listLt_asymm x.2 y.2 hl1 hc)
        · exact Prod.ext heq1 he2.symm
      · exact Prod.ext heq1 he1

theorem keyLe_trans (x y z : Int × List Nat) (h1 : keyLe x y = true)
    (h2 : keyLe y z = true) : keyLe x z = true := by
  rw [keyLe] at h1 h2 ⊢
  by_cases hxy : x.1 < y.1
  · by_cases hyz : y.1 < z.1
    · rw [if_pos (by omega)]
    · by_cases hzy : z.1 < y.1
      · rw [if_neg hyz, if_pos hzy] at h2
        simp at h2
      · rw [if_pos (by omega)]
  · by_cases hyx : y.1 < x.1
    · rw [if_neg hxy, if_pos hyx] at h1
      simp at h1
    · rw [if_neg hxy, if_neg hyx] at h1
      by_cases hyz : y.1 < z.1
      · rw [if_pos (by omega)]
      · by_cases hzy : z.1 < y.1
        · rw [if_neg hyz, if_pos hzy] at h2
          simp at h2
        · rw [if_neg hyz, if_neg hzy] at h2
          rw [if_neg (by omega), if_neg (by omega)]
          rcases (by simpa using h1 : listLt x.2 y.2 = true ∨ x.2 = y.2) with hl1 | he1
          · rcases (by simpa using h2 : listLt y.2 z.2 = true ∨ y.2 = z.2) with hl2 | he2
            · rw [listLt_trans x.2 y.2 z.2 hl1 hl2]
              simp
            · rw [← he2, hl1]
              simp
          · rw [he1]
            exact h2

/-- The ascending sort relation on `(timestamp_ns, name)` keys. -/

instance : IsTotal (Int × List Nat) keyLE := ⟨keyLe_total⟩

instance : IsTotal (Int × List Nat) keyGE := ⟨fun x y => keyLe_total y x⟩

instance : IsTrans (Int × List Nat) keyLE := ⟨fun x y z => keyLe_trans x y z⟩

instance : IsTrans (Int × List Nat) keyGE := ⟨fun x y z h1 h2 => keyLe_trans z y x h2 h1⟩

instance : IsAntisymm (Int × List Nat) keyLE := ⟨keyLe_antisymm⟩

instance : IsAntisymm (Int × List Nat) keyGE :=
  ⟨fun x y h1 h2 => (keyLe_antisymm y x h1 h2).symm⟩

theorem BoundNs.le_total : ∀ x y : BoundNs, le x y = true ∨ le y x = true := by
  intro x y
  cases x <;> cases y <;> simp [BoundNs.le]
  omega

theorem BoundNs.le_antisymm : ∀ x y : BoundNs, le x y = true → le y x = true → x = y := by
  intro x y h1 h2
  cases x <;> cases y <;> simp_all [BoundNs.le]
  omega


namespace Store

theorem b64encode_ne_nil (b0 : Nat) (rest : List Nat) : b64encode (b0 :: rest) ≠ [] := by
  match rest with
  | [] => simp [b64encode]
  | [b1] => simp [b64encode]
  | b1 :: b2 :: rest2 => simp [b64encode]

theorem encode_ne_nil (signed : Bool) (i : Int)
    (hLpos : 0 < IntBaseEncoder.bytes_length signed i) :
    IntBaseEncoder.encode signed i ≠ [] := by
  rw [IntBaseEncoder.encode]
  rcases hn : natToBytesBE (IntBaseEncoder.bytes_length signed i)
      ((i % ((2 : Int) ^ (8 * IntBaseEncoder.bytes_length signed i))).toNat) with _ | ⟨b0, rest⟩
  · have := length_natToBytesBE (IntBaseEncoder.bytes_length signed i)
      ((i % ((2 : Int) ^ (8 * IntBaseEncoder.bytes_length signed i))).toNat)
    rw [hn] at this
    simp at this
    omega
  · exact b64encode_ne_nil b0 rest

theorem encode_true_ne_nil (i : Int) : IntBaseEncoder.encode true i ≠ [] := by
  apply encode_ne_nil
  simp only [IntBaseEncoder.bytes_length, cond_true]
  omega

theorem encode_no_dot (signed : Bool) (i : Int) :
    ∀ x ∈ IntBaseEncoder.encode signed i, x ≠ 46 := by
  intro x hx
  rw [IntBaseEncoder.encode] at hx
  rcases mem_b64encode _ (mem_natToBytesBE_lt _ _) x hx with h | ⟨s, hs, h⟩
  · omega
  · rw [h]
    exact b64chr_ne_dot s hs

/-- Decoding an encoded name recovers the timestamp:
`_decode_name` inverts `_encode_name` on the timestamp component for
every nonce below `2 ^ NUM_RANDOM_BITS`. -/
theorem decode_name_encode_name (t : Int) (random : Nat)
    (h : random < 2 ^ NUM_RANDOM_BITS) :
    _decode_name (_encode_name t random) = .ok t := by
  have hsplit : pathStemSuffix (IntBaseEncoder.encode true
      (IntMerger.merge NUM_RANDOM_BITS t (random : Int)) ++ 46 :: _file_suffix_encoded) =
      (IntBaseEncoder.encode true (IntMerger.merge NUM_RANDOM_BITS t (random : Int)),
        46 :: _file_suffix_encoded) := by
    apply pathStemSuffix_append
    · exact encode_true_ne_nil _
    · decide
    · decide
  rw [_encode_name, _decode_name]
  simp only [hsplit]
  have hver : IntBaseEncoder.decode false (46 :: _file_suffix_encoded) = 1 := by decide
  rw [hver, if_neg (by decide), IntBaseEncoder.decode_encode_signed,
    IntMerger.split_merge NUM_RANDOM_BITS t random h]


/-- The egress pipeline inverts the ingress pipeline whenever the
configured compression and encryption stages are mutual inverses,
in each of the four optional-stage configurations. -/
theorem egress_ingress (cfg : StoreCfg)
    (hc : ∀ c ∈ cfg.compression, ∀ b, c.2 (c.1 b) = b)
    (he : ∀ e ∈ cfg.encryption, ∀ b, e.2 (e.1 b) = b)
    (p : List Nat) : _egress_blob cfg (_ingress_blob cfg p) = p := by
  rcases hcc : cfg.compression with _ | c <;> rcases hee : cfg.encryption with _ | e
  · simp only [_ingress_blob, _egress_blob, _compress_blob, _encrypt_blob, _decrypt_blob,
      _decompress_blob, hcc, hee]
  · simp only [_ingress_blob, _egress_blob, _compress_blob, _encrypt_blob, _decrypt_blob,
      _decompress_blob, hcc, hee]
    exact he e (by rw [hee]; rfl) p
  · simp only [_ingress_blob, _egress_blob, _compress_blob, _encrypt_blob, _decrypt_blob,
      _decompress_blob, hcc, hee]
    exact hc c (by rw [hcc]; rfl) p
  · simp only [_ingress_blob, _egress_blob, _compress_blob, _encrypt_blob, _decrypt_blob,
      _decompress_blob, hcc, hee]
    rw [he e (by rw [hee]; rfl) (c.1 p)]
    exact hc c (by rw [hcc]; rfl) p


/-- Sorting by the reversed comparison produces exactly the reverse of the
ascending sort: both sides are permutations of `F` sorted by the total
antisymmetric relation `keyGE`. -/
theorem insertionSort_ge_eq_reverse (F : List (Int × List Nat)) :
    List.insertionSort keyGE F = (List.insertionSort keyLE F).reverse := by
  refine List.eq_of_perm_of_sorted (r := keyGE) ?_ ?_ ?_
  · exact (List.perm_insertionSort keyGE F).trans
      ((List.perm_insertionSort keyLE F).symm.trans (List.reverse_perm _).symm)
  · exact List.sorted_insertionSort keyGE F
  · exact List.pairwise_reverse.mpr (List.sorted_insertionSort keyLE F)

/-- Swapping the two bounds of `getblobs` yields exactly the reversed
record list (and in particular the same set of records). -/
theorem getblobs_swap_reverse (cfg : StoreCfg) (files : List (List Nat × List Nat))
    (a b : BoundNs) (hab : a ≠ b) :
    getblobs cfg files b a = (getblobs cfg files a b).map List.reverse := by
  cases hd : decodeListing files with
  | error e => simp [getblobs, hd, Except.map]
  | ok tps =>
    rcases BoundNs.le_total a b with h | h
    · have h2 : BoundNs.le b a = false := by
        cases hba : BoundNs.le b a
        · rfl
        · exact absurd (BoundNs.le_antisymm b a hba h) (fun hc => hab hc.symm)
      simp only [getblobs, hd, h, if_true, h2, Bool.false_eq_true, if_false, Except.map,
        insertionSort_ge_eq_reverse, List.map_reverse]
    · have h2 : BoundNs.le a b = false := by
        cases hba : BoundNs.le a b
        · rfl
        · exact absurd (BoundNs.le_antisymm a b hba h) hab
      simp only [getblobs, hd, h, if_true, h2, Bool.false_eq_true, if_false, Except.map,
        insertionSort_ge_eq_reverse, List.map_reverse, List.reverse_reverse]

/-- `_decode_name` raises `BlobVersionUnsupported` on a name whose version
tag exceeds `FILE_VERSION`. -/
theorem decode_name_bad_version (t : Int) (r v : Nat) (hv : FILE_VERSION < v) :
    _decode_name (nameWithVersion t r v) = .error .BlobVersionUnsupported := by
  have hvpos : 0 < v := by
    rw [FILE_VERSION] at hv
    omega
  have hsfx : IntBaseEncoder.encode false (v : Int) ≠ [] := by
    apply encode_ne_nil
    simp only [IntBaseEncoder.bytes_length, cond_false, Int.natAbs_ofNat]
    have := IntBaseEncoder.bitLen_pos v hvpos
    omega
  have hsplit : pathStemSuffix (nameWithVersion t r v) =
      (IntBaseEncoder.encode true (IntMerger.merge NUM_RANDOM_BITS t (r : Int)),
        46 :: IntBaseEncoder.encode false (v : Int)) := by
    apply pathStemSuffix_append
    · exact encode_true_ne_nil _
    · exact hsfx
    · exact encode_no_dot false _
  rw [_decode_name]
  simp only [hsplit]
  rw [IntBaseEncoder.decode_cons_dot, IntBaseEncoder.decode_encode_unsigned v,
    if_pos (by exact_mod_cast hv)]

/-- A directory listing whose first entry has an unsupported version tag
makes the whole `getblobs` query fail with `BlobVersionUnsupported`
(no entry is skipped and nothing is yielded). -/
theorem getblobs_version_error (cfg : StoreCfg) (t : Int) (r v : Nat)
    (hv : FILE_VERSION < v) (content : List Nat) (rest : List (List Nat × List Nat))
    (a b : BoundNs) :
    getblobs cfg ((nameWithVersion t r v, content) :: rest) a b =
      .error .BlobVersionUnsupported := by
  rw [getblobs]
  have hd : decodeListing ((nameWithVersion t r v, content) :: rest) =
      .error .BlobVersionUnsupported := by
    rw [decodeListing]
    simp only [decode_name_bad_version t r v hv]
  rw [hd]

/-- With one record at timestamp 0 and one at a positive timestamp, the
query `getblobs(-inf, -inf)` yields no records. -/
theorem getblobs_neg_inf_empty (cfg : StoreCfg) (n1 n2 : Nat) (T : Int)
    (c1 c2 : List Nat) (h1 : n1 < 2 ^ NUM_RANDOM_BITS) (h2 : n2 < 2 ^ NUM_RANDOM_BITS)
    (_hT : 0 < T) :
    getblobs cfg [(_encode_name 0 n1, c1), (_encode_name T n2, c2)]
      BoundNs.negInf BoundNs.negInf = .ok [] := by
  have hd : decodeListing [(_encode_name 0 n1, c1), (_encode_name T n2, c2)] =
      .ok [(0, _encode_name 0 n1), (T, _encode_name T n2)] := by
    rw [decodeListing, decodeListing, decodeListing]
    simp only [decode_name_encode_name 0 n1 h1, decode_name_encode_name T n2 h2]
  rw [getblobs, hd]
  simp [BoundNs.le]


theorem pull_repo_trace (o : GitOracle) : (_pull_repo o).1 = [.pull] := by
  rcases hp : o.pullOutcome with _ | flags
  · rw [_pull_repo, hp]
  · by_cases hip : _is_pulled flags = true <;>
      · rw [_pull_repo, hp]
        simp [hip]

theorem pull_repo_ok (o : GitOracle) (h : pullFatal o = false) :
    (_pull_repo o).2 = .ok () := by
  rcases hp : o.pullOutcome with _ | flags
  · rw [_pull_repo, hp]
  · have hip : _is_pulled flags = true := by
      rw [pullFatal, hp] at h
      simpa using h
    rw [_pull_repo, hp]
    simp [hip]

theorem pull_repo_fatal (o : GitOracle) (h : pullFatal o = true) :
    (_pull_repo o).2 = .error .RepoPullError := by
  rcases hp : o.pullOutcome with _ | flags
  · rw [pullFatal, hp] at h
    simp at h
  · have hip : _is_pulled flags = false := by
      rw [pullFatal, hp] at h
      simpa using h
    rw [_pull_repo, hp]
    simp [hip]

/-- The diverged-remote retry protocol: when the first push completes but
reports failure, the trace contains exactly one pull and at most two
pushes; when the pull is not fatal, the trace is exactly
commit, push, pull, push, and a retried push that completes but again
reports failure raises `RepoPushError`; when the pull is fatal the retry
push never happens. -/
theorem commit_push_retry (o : GitOracle) (flags0 : Nat)
    (h0 : o.pushOutcome 0 = .completes flags0) (hnp : _is_pushed flags0 = false) :
    ((_commit_and_push_repo o).1.count GitOp.pull = 1 ∧
      (_commit_and_push_repo o).1.count GitOp.push ≤ 2) ∧
    (pullFatal o = false →
      (_commit_and_push_repo o).1 = [.commit, .push, .pull, .push] ∧
      ∀ flags1, o.pushOutcome 1 = .completes flags1 → _is_pushed flags1 = false →
        (_commit_and_push_repo o).2 = .error .RepoPushError) ∧
    (pullFatal o = true →
      (_commit_and_push_repo o).1 = [.commit, .push, .pull] ∧
      (_commit_and_push_repo o).2 = .error .RepoPullError) := by
  by_cases hf : pullFatal o = true
  · have hp2 := pull_repo_fatal o hf
    have hcp : _commit_and_push_repo o = ([.commit, .push, .pull], .error .RepoPullError) := by
      rw [_commit_and_push_repo, h0]
      simp [hnp, hp2, pull_repo_trace o]
    rw [hcp]
    refine ⟨⟨by decide, by decide⟩, ?_, fun _ => ⟨rfl, rfl⟩⟩
    intro hcontra
    rw [hf] at hcontra
    cases hcontra
  · have hf2 : pullFatal o = false := by
      cases hfc : pullFatal o
      · rfl
      · exact absurd hfc hf
    have hp2 := pull_repo_ok o hf2
    rcases h1 : o.pushOutcome 1 with _ | flags1
    · have hcp : _commit_and_push_repo o =
          ([.commit, .push, .pull, .push], .error .GitCommandError) := by
        rw [_commit_and_push_repo, h0]
        simp [hnp, hp2, pull_repo_trace o, h1]
      rw [hcp]
      refine ⟨⟨by decide, by decide⟩, ?_, ?_⟩
      · intro _
        refine ⟨rfl, ?_⟩
        intro flags1' hc _
        cases hc
      · intro hcontra
        rw [hf2] at hcontra
        cases hcontra
    · by_cases hip : _is_pushed flags1 = true
      · have hcp : _commit_and_push_repo o =
            ([.commit, .push, .pull, .push], .ok ()) := by
          rw [_commit_and_push_repo, h0]
          simp [hnp, hp2, pull_repo_trace o, h1, hip]
        rw [hcp]
        refine ⟨⟨by decide, by decide⟩, ?_, ?_⟩
        · intro _
          refine ⟨rfl, ?_⟩
          intro flags1' hc hnp1
          injection hc with he
          subst he
          rw [hip] at hnp1
          cases hnp1
        · intro hcontra
          rw [hf2] at hcontra
          cases hcontra
      · have hcp : _commit_and_push_repo o =
            ([.commit, .push, .pull, .push], .error .RepoPushError) := by
          rw [_commit_and_push_repo, h0]
          simp [hnp, hp2, pull_repo_trace o, h1, hip]
        rw [hcp]
        refine ⟨⟨by decide, by decide⟩, ?_, ?_⟩
        · intro _
          exact ⟨rfl, fun _ _ _ => rfl⟩
        · intro hcontra
          rw [hf2] at hcontra
          cases hcontra

/-- In a successful `addblob`, the write and stage happen first, the
commit-and-push trace follows, and the round-trip verification is the
final operation — after the push, not before it. -/
theorem addblob_trace (cfg : StoreCfg) (o : GitOracle) (blob : List Nat)
    (timestamp_ns : Int) (random : Nat)
    (hr : random < 2 ^ NUM_RANDOM_BITS)
    (hc : ∀ c ∈ cfg.compression, ∀ b, c.2 (c.1 b) = b)
    (he : ∀ e ∈ cfg.encryption, ∀ b, e.2 (e.1 b) = b)
    (hcp : (_commit_and_push_repo o).2 = .ok ()) :
    addblob cfg o blob timestamp_ns random =
      ([.writeFile, .indexAdd] ++ (_commit_and_push_repo o).1 ++ [.verifyRoundTrip],
        .ok ()) := by
  rw [addblob, _addblob]
  simp [decode_name_encode_name timestamp_ns random hr, hcp,
    egress_ingress cfg hc he blob]


end Store

/-! ## Claims -/


/-- C1: for every canonical timestamp `t` (any signed integer number of
nanoseconds, including zero and negative values) and every nonce `n` in
`[0, 2^256)`, decoding the encoded file name produced for `(t, n)` —
built by `Store._encode_name` from `merge(t, n)` via the signed
`urlsafe_b64` stem encoder plus the encoded version suffix — recovers
exactly `t` via `Store._decode_name`. -/
theorem claim_C1 (t : Int) (n : Nat) (h : n < 2 ^ NUM_RANDOM_BITS) :
    Store._decode_name (Store._encode_name t n) = .ok t :=
  Store.decode_name_encode_name t n h

/-- Witness for C1 at `t = 3`, `n = 5`. -/
theorem claim_C1_witness :
    (5 : Nat) < 2 ^ NUM_RANDOM_BITS ∧
      Store._decode_name (Store._encode_name 3 5) = .ok 3 :=
  ⟨by decide, claim_C1 3 5 (by decide)⟩

/-- C2 (amended): a directory entry whose encoded version suffix decodes
to a value greater than `FILE_VERSION` is not skipped: `_decode_name`
raises `BlobVersionUnsupported`, the exception propagates out of
`Store.getblobs`, and the whole query aborts without yielding the
remaining records. -/
theorem claim_C2 (cfg : StoreCfg) (t : Int) (r v : Nat) (hv : FILE_VERSION < v)
    (content : List Nat) (rest : List (List Nat × List Nat)) (a b : BoundNs) :
    Store.getblobs cfg ((Store.nameWithVersion t r v, content) :: rest) a b =
      .error .BlobVersionUnsupported :=
  Store.getblobs_version_error cfg t r v hv content rest a b

/-- C2 counterexample: a listing with one supported record (timestamp 0)
and one version-2 record.  The claim predicts the version-2 file is
skipped and the good record still yielded; instead `getblobs` aborts with
`BlobVersionUnsupported`, which is not that yield. -/
theorem claim_C2_counterexample :
    Store.getblobs ⟨none, none⟩
        [(Store._encode_name 0 0, [7]), (Store.nameWithVersion 0 1 2, [8])]
        BoundNs.negInf BoundNs.posInf = .error .BlobVersionUnsupported ∧
      (Except.error StoreErr.BlobVersionUnsupported : Except StoreErr (List Blob)) ≠
        .ok [Store.yieldBlob ⟨none, none⟩
          [(Store._encode_name 0 0, [7]), (Store.nameWithVersion 0 1 2, [8])]
          (0, Store._encode_name 0 0)] :=
  ⟨by rfl, fun hc => by cases hc⟩

/-- Witness for C2 (amended) at version tag 2. -/
theorem claim_C2_witness :
    FILE_VERSION < 2 ∧
      Store.getblobs ⟨none, none⟩ [(Store.nameWithVersion 5 0 2, [])] BoundNs.negInf
        BoundNs.posInf = .error .BlobVersionUnsupported :=
  ⟨by decide, claim_C2 ⟨none, none⟩ 5 0 2 (by decide) [] [] BoundNs.negInf BoundNs.posInf⟩

/-- C3: for every payload `p` and each of the four pipeline
configurations (compression absent/present × encryption absent/present),
provided the configured compression and encryption stages are mutual
inverses, `egress(ingress(p)) = p`, where ingress is encrypt-after-
compress and egress is decompress-after-decrypt. -/
theorem claim_C3 (cfg : StoreCfg)
    (hc : ∀ c ∈ cfg.compression, ∀ b, c.2 (c.1 b) = b)
    (he : ∀ e ∈ cfg.encryption, ∀ b, e.2 (e.1 b) = b)
    (p : List Nat) :
    Store._egress_blob cfg (Store._ingress_blob cfg p) = p :=
  Store.egress_ingress cfg hc he p

/-- Witness for C3 with both stages present (a prefix-byte "compression"
and a reversal "encryption", mutual inverses). -/
theorem claim_C3_witness :
    Store._egress_blob
        ⟨some (fun l => 0 :: l, fun l => l.drop 1), some (List.reverse, List.reverse)⟩
        (Store._ingress_blob
          ⟨some (fun l => 0 :: l, fun l => l.drop 1), some (List.reverse, List.reverse)⟩
          [7, 8]) = [7, 8] :=
  claim_C3 _
    (by
      intro c hcm b
      simp only [Option.mem_def, Option.some.injEq] at hcm
      subst hcm
      simp)
    (by
      intro e hem b
      simp only [Option.mem_def, Option.some.injEq] at hem
      subst hem
      simp)
    [7, 8]

/-- C4: for every stored listing and every pair of normalized bounds
`a ≠ b`, `getblobs(a, b)` and `getblobs(b, a)` return the same records,
one call in ascending registered-timestamp order and the other in exactly
the reverse order (when start > end the bounds are swapped and results
are reported in descending order). -/
theorem claim_C4 (cfg : StoreCfg) (files : List (List Nat × List Nat))
    (a b : BoundNs) (hab : a ≠ b) :
    Store.getblobs cfg files b a = (Store.getblobs cfg files a b).map List.reverse :=
  Store.getblobs_swap_reverse cfg files a b hab

/-- Witness for C4 at a two-record listing and the bounds `(-inf, +inf)`. -/
theorem claim_C4_witness :
    BoundNs.negInf ≠ BoundNs.posInf ∧
      Store.getblobs ⟨none, none⟩
          [(Store._encode_name 1 0, [9]), (Store._encode_name 0 0, [8])]
          BoundNs.posInf BoundNs.negInf =
        (Store.getblobs ⟨none, none⟩
          [(Store._encode_name 1 0, [9]), (Store._encode_name 0 0, [8])]
          BoundNs.negInf BoundNs.posInf).map List.reverse :=
  ⟨by decide, claim_C4 _ _ _ _ (by decide)⟩

/-- C5: in every commit-and-push, when the first push completes but
reports it did not push, exactly one pull is performed followed by
exactly one retried push (when the pull is not fatal); if that second
push also completes and reports failure, a fatal `RepoPushError` is
raised; and there is never a third push attempt or a second pull (the
trace holds exactly one pull and at most two pushes in every case). -/
theorem claim_C5 (o : GitOracle) (flags0 : Nat)
    (h0 : o.pushOutcome 0 = .completes flags0)
    (hnp : Store._is_pushed flags0 = false) :
    ((Store._commit_and_push_repo o).1.count GitOp.pull = 1 ∧
      (Store._commit_and_push_repo o).1.count GitOp.push ≤ 2) ∧
    (Store.pullFatal o = false →
      (Store._commit_and_push_repo o).1 = [.commit, .push, .pull, .push] ∧
      ∀ flags1, o.pushOutcome 1 = .completes flags1 → Store._is_pushed flags1 = false →
        (Store._commit_and_push_repo o).2 = .error .RepoPushError) ∧
    (Store.pullFatal o = true →
      (Store._commit_and_push_repo o).1 = [.commit, .push, .pull] ∧
      (Store._commit_and_push_repo o).2 = .error .RepoPullError) :=
  Store.commit_push_retry o flags0 h0 hnp
/-- Witness for C5 at `oracleC5`. -/
theorem claim_C5_witness :
    oracleC5.pushOutcome 0 = .completes 512 ∧ Store._is_pushed 512 = false ∧
      (((Store._commit_and_push_repo oracleC5).1.count GitOp.pull = 1 ∧
        (Store._commit_and_push_repo oracleC5).1.count GitOp.push ≤ 2) ∧
      (Store.pullFatal oracleC5 = false →
        (Store._commit_and_push_repo oracleC5).1 = [.commit, .push, .pull, .push] ∧
        ∀ flags1, oracleC5.pushOutcome 1 = .completes flags1 →
          Store._is_pushed flags1 = false →
          (Store._commit_and_push_repo oracleC5).2 = .error .RepoPushError) ∧
      (Store.pullFatal oracleC5 = true →
        (Store._commit_and_push_repo oracleC5).1 = [.commit, .push, .pull] ∧
        (Store._commit_and_push_repo oracleC5).2 = .error .RepoPullError)) :=
  ⟨rfl, rfl, claim_C5 oracleC5 512 rfl rfl⟩

/-- C6 (amended): in every successful single-blob add, the file write and
index staging come first, the commit-and-push trace follows, and the
round-trip verification is completed last — after the commit and push,
not before them (though still before `addblob` returns). -/
theorem claim_C6 (cfg : StoreCfg) (o : GitOracle) (blob : List Nat) (timestamp_ns : Int)
    (random : Nat) (hr : random < 2 ^ NUM_RANDOM_BITS)
    (hc : ∀ c ∈ cfg.compression, ∀ b, c.2 (c.1 b) = b)
    (he : ∀ e ∈ cfg.encryption, ∀ b, e.2 (e.1 b) = b)
    (hcp : (Store._commit_and_push_repo o).2 = .ok ()) :
    Store.addblob cfg o blob timestamp_ns random =
      ([.writeFile, .indexAdd] ++ (Store._commit_and_push_repo o).1 ++ [.verifyRoundTrip],
        .ok ()) :=
  Store.addblob_trace cfg o blob timestamp_ns random hr hc he hcp

/-- C6 counterexample: a successful `addblob` run whose trace places the
commit and the push strictly before the round-trip verification, so the
verification is not completed before the commit and push. -/
theorem claim_C6_counterexample :
    (Store.addblob ⟨none, none⟩ ⟨fun _ => .completes 256, .completes 64, true⟩
        [1, 2] 0 0).1 =
      [.writeFile, .indexAdd, .commit, .push, .verifyRoundTrip] ∧
    List.findIdx (fun op => op == GitOp.commit)
        [GitOp.writeFile, GitOp.indexAdd, GitOp.commit, GitOp.push, GitOp.verifyRoundTrip] <
      List.findIdx (fun op => op == GitOp.verifyRoundTrip)
        [GitOp.writeFile, GitOp.indexAdd, GitOp.commit, GitOp.push, GitOp.verifyRoundTrip] :=
  ⟨by rfl, by decide⟩

/-- Witness for C6 (amended): concrete successful run. -/
theorem claim_C6_witness :
    (0 : Nat) < 2 ^ NUM_RANDOM_BITS ∧
      Store.addblob ⟨none, none⟩ ⟨fun _ => .completes 256, .completes 64, true⟩ [1, 2] 0 0 =
        ([.writeFile, .indexAdd, .commit, .push, .verifyRoundTrip], .ok ()) := by
  refine ⟨by decide, ?_⟩
  rw [claim_C6 ⟨none, none⟩ ⟨fun _ => .completes 256, .completes 64, true⟩ [1, 2] 0 0
    (by decide) (by simp) (by simp) rfl]
  rfl

/-- C7 counterexample: at the unsigned variable-length `urlsafe_b64`
configuration (the store's file-suffix encoder), `encode(0)` is the empty
token, not a non-empty one: the computed byte length is
`(0 + 7 + 0) / 8 = 0`. -/
theorem claim_C7_counterexample : IntBaseEncoder.encode false 0 = [] := rfl

/-- C7 (amended): at the signed variable-length configuration `encode(0)`
is the minimal non-empty token `"AA=="`; at the unsigned variable-length
configuration it is the empty token, which still decodes back to 0. -/
theorem claim_C7 :
    IntBaseEncoder.encode true 0 = [65, 65, 61, 61] ∧
    IntBaseEncoder.encode false 0 = [] ∧
    IntBaseEncoder.decode false [] = 0 :=
  ⟨rfl, rfl, rfl⟩

/-- C8: with exactly one record at canonical timestamp 0 and one record
at a strictly positive canonical timestamp, `getblobs(-inf, -inf)` yields
zero records under the inclusive-range filter. -/
theorem claim_C8 (cfg : StoreCfg) (n1 n2 : Nat) (T : Int) (c1 c2 : List Nat)
    (h1 : n1 < 2 ^ NUM_RANDOM_BITS) (h2 : n2 < 2 ^ NUM_RANDOM_BITS) (hT : 0 < T) :
    Store.getblobs cfg [(Store._encode_name 0 n1, c1), (Store._encode_name T n2, c2)]
      BoundNs.negInf BoundNs.negInf = .ok [] :=
  Store.getblobs_neg_inf_empty cfg n1 n2 T c1 c2 h1 h2 hT

/-- Witness for C8 at `T = 5`. -/
theorem claim_C8_witness :
    (0 : Int) < 5 ∧
      Store.getblobs ⟨none, none⟩
        [(Store._encode_name 0 0, []), (Store._encode_name 5 0, [])]
        BoundNs.negInf BoundNs.negInf = .ok [] :=
  ⟨by decide, claim_C8 ⟨none, none⟩ 0 0 5 [] [] (by decide) (by decide) (by decide)⟩

/-- C9: for every integer `h` (including negative values) and every `l`
in `[0, 2^w)`, where `w` is the bit width configured at `IntMerger`
construction, `split(merge(h, l)) = (h, l)`. -/
theorem claim_C9 (w : Nat) (h : Int) (l : Nat) (hl : l < 2 ^ w) :
    IntMerger.split w (IntMerger.merge w h (l : Int)) = (h, (l : Int)) :=
  IntMerger.split_merge w h l hl

/-- Witness for C9 at `w = 8`, `h = 3`, `l = 5`. -/
theorem claim_C9_witness :
    (5 : Nat) < 2 ^ 8 ∧
      IntMerger.split 8 (IntMerger.merge 8 3 ((5 : Nat) : Int)) = (3, ((5 : Nat) : Int)) :=
  ⟨by decide, claim_C9 8 3 5 (by decide)⟩

/-- C10: every record yielded by `getblobs` carries, as its `timestamp`
field, `float64OfTimeNs timestamp_ns` — the binary64 value of the
floating-point division `timestamp_ns / 1e9` — and this conversion is
lossy: two distinct canonical nanosecond timestamps yield the same float
timestamp, so the exact integer nanosecond value is not returned. -/
theorem claim_C10 :
    (∀ (cfg : StoreCfg) (files : List (List Nat × List Nat)) (tp : Int × List Nat),
      (Store.yieldBlob cfg files tp).timestamp = float64OfTimeNs tp.1) ∧
    float64OfTimeNs (10 ^ 18) = float64OfTimeNs (10 ^ 18 + 1) ∧
    (10 ^ 18 : Int) ≠ (10 ^ 18 + 1 : Int) := by
  refine ⟨fun cfg files tp => rfl, ?_, by decide⟩
  have h1 : float64OfTimeNs (10 ^ 18) = ⟨8388608000000000, -23⟩ := by decide
  have h2 : float64OfTimeNs (10 ^ 18 + 1) = ⟨8388608000000000, -23⟩ := by decide
  rw [h1, h2]

end Gitblobts
